import Mathlib

/-!
# Verification of `jm::memory_signature` (src/include/memory_signature.hpp)

A shallow embedding of the single-header C++ library `memory_signature`.
Bytes are modelled as `Nat` values; every store into the C++ `unsigned char`
buffer is modelled with an explicit `% 256`.  Fallible constructors return
`Except SigError memory_signature`, where the two error values correspond to
the two exceptions the header can throw:

* `std::invalid_argument("pattern size did not match mask size")`
  (`SigError.LengthMismatch`), and
* `std::range_error("unable to find unused byte in the provided pattern")`
  (`SigError.UnresolvableWildcard`).

The header throws no other exception; in particular nothing corresponding to
a "malformed token" error exists in the source.
-/

set_option maxRecDepth 10000

namespace MemorySignature

/-- The two exceptions `memory_signature.hpp` can throw during construction. -/
inductive SigError where
  | LengthMismatch
  | UnresolvableWildcard
deriving DecidableEq, Repr

/-- The state of the `std::bitset<256>` used by `detail::find_wildcard`
(line 33).  Index `v` holds the current mark of byte value `v`. -/
def initialBits : List Bool := List.replicate 256 false

/-- One iteration of the marking loop of `detail::find_wildcard` (lines 35-36):
`bits[static_cast<unsigned char>(*first)] = cmp(*first);`.
Note that the source *assigns* the comparator result into the bitset; it does
not OR it in, so a later occurrence of the same byte value overwrites the
mark left by an earlier occurrence. -/
def bitsAssign (bits : List Bool) (pb : Nat × Bool) : List Bool :=
  bits.set (pb.1 % 256) pb.2

/-- The bitset produced by the marking loop of `detail::find_wildcard`
(lines 35-36), run over the sequence of (element value, comparator result)
pairs in iteration order. -/
def markBits (pairs : List (Nat × Bool)) : List Bool :=
  pairs.foldl bitsAssign initialBits

/-- `detail::find_wildcard` (lines 30-43).  The element sequence together
with the (possibly stateful) comparator's answers is supplied as a list of
pairs, in iteration order.  After the marking loop the source scans
`i = 0 .. 255` in ascending order and returns the first `i` with `!bits[i]`;
if every bit is set it throws `std::range_error` (modelled as `none`). -/
def find_wildcard (pairs : List (Nat × Bool)) : Option Nat :=
  (List.range 256).find? fun i => !(markBits pairs).getD i false

/-- The mask indices dereferenced by `detail::find_wildcard_masked`
(lines 45-51): the loop inside `find_wildcard` runs once per *pattern*
element and executes `*mask_first++` on each iteration, so mask indices
`0, 1, ..., pattern.length - 1` are dereferenced regardless of the mask's
own length. -/
def maskedResolverMaskReads (pattern : List Nat) : List Nat :=
  List.range pattern.length

/-- `detail::find_wildcard_masked` (lines 45-51):
`find_wildcard(first, last, [=](auto) mutable { return *mask_first++ != unk; })`.
Each pattern element is paired with the comparator result taken from the
mask at the corresponding index (an out-of-range dereference of the real
C++ iterator is modelled with default value 0; see `maskedResolverMaskReads`
for the set of indices actually dereferenced). -/
def find_wildcard_masked (pattern mask : List Nat) (unk : Nat) : Option Nat :=
  find_wildcard <| (maskedResolverMaskReads pattern).map fun i =>
    (pattern.getD i 0, decide (mask.getD i 0 ≠ unk))

/-- `detail::find_wildcard_hybrid` (lines 53-57):
`find_wildcard(first, last, [](auto b) { return !(b != ' ' && b != '?'); })`.
The comparator is kept exactly as written in the source, including its
leading negation. -/
def find_wildcard_hybrid (cs : List Char) : Option Nat :=
  find_wildcard <| cs.map fun c => (c.toNat, !(c != ' ' && c != '?'))

/-- The signature entity: the owned byte buffer `_pattern .. _end` and the
`_wildcard` sentinel byte (class `memory_signature`, lines 62-65). -/
structure memory_signature where
  pattern : List Nat
  wildcard : Nat
deriving DecidableEq, Repr

deriving instance DecidableEq for Except

/-- `memory_signature::masked_to_wildcard` (lines 71-81): for each position,
copy the pattern byte when the mask entry differs from `unknown`, otherwise
store the resolved `_wildcard`. -/
def masked_to_wildcard (pattern mask : List Nat) (unk w : Nat) : List Nat :=
  (List.range pattern.length).map fun i =>
    if mask.getD i 0 ≠ unk then pattern.getD i 0 % 256 else w

/-- Hex digit test used to model `std::strtoul(tokens, nullptr, 16)`. -/
def isHexDigitChar (c : Char) : Bool :=
  (('0' ≤ c && c ≤ '9') || ('a' ≤ c && c ≤ 'f') || ('A' ≤ c && c ≤ 'F'))

/-- Value of one hex digit character. -/
def hexDigitVal (c : Char) : Nat :=
  if '0' ≤ c && c ≤ '9' then c.toNat - '0'.toNat
  else if 'a' ≤ c && c ≤ 'f' then c.toNat - 'a'.toNat + 10
  else c.toNat - 'A'.toNat + 10

/-- Accumulator loop of `hexVal`. -/
def hexValGo (acc : Nat) : List Char → Nat
  | [] => acc
  | c :: cs => if isHexDigitChar c then hexValGo (16 * acc + hexDigitVal c) cs else acc

/-- Model of `std::strtoul(tokens, nullptr, 16)` (lines 98 and 112) on the
token buffer: convert the longest leading run of hexadecimal digit
characters, yielding 0 when there is none.  (`strtoul` additionally skips
leading whitespace and an optional sign and accepts a `0x` prefix; none of
those can make a difference for the token buffers reached by the theorems
below, whose tokens have at most two characters, none of which is
whitespace, `+` or `-`.) -/
def hexVal (cs : List Char) : Nat := hexValGo 0 cs

/-- The loop state of `memory_signature::hybrid_to_wildcard` (lines 84-115):
the token character buffer `tokens[0..n_tokens-1]`, the `prev_was_wildcard`
flag, and the output bytes written through `my_pat` so far. -/
structure HState where
  tokens : List Char
  prev : Bool
  out : List Nat
deriving DecidableEq, Repr

/-- One iteration of the character loop of `hybrid_to_wildcard`
(lines 91-109).  A space flushes the pending token (if any) through
`strtoul` and clears `prev_was_wildcard`; a `?` emits one wildcard byte
unless the previous emission in the current `?` run already did; any other
character is appended to the token buffer. -/
def hstep (w : Nat) (s : HState) (c : Char) : HState :=
  if c = ' ' then
    if s.tokens.isEmpty then { s with prev := false }
    else { tokens := [], prev := false, out := s.out ++ [hexVal s.tokens % 256] }
  else if c = '?' then
    if s.prev then s else { s with prev := true, out := s.out ++ [w] }
  else
    { s with tokens := s.tokens ++ [c] }

/-- The trailing-token flush of `hybrid_to_wildcard` (lines 111-112): after
the loop, a pending non-empty token is still converted and appended. -/
def hybridFlush (s : HState) : List Nat :=
  if s.tokens.isEmpty then s.out else s.out ++ [hexVal s.tokens % 256]

/-- `memory_signature::hybrid_to_wildcard` (lines 84-115): run the character
loop over the input, then flush a trailing unterminated token (lines
111-112). -/
def hybrid_to_wildcard (w : Nat) (cs : List Char) : List Nat :=
  hybridFlush (cs.foldl (hstep w) ⟨[], false, []⟩)

/-- The masked constructors (lines 193-205 for the string mask and 216-228
for the byte mask; both have identical structure).  C++ member initializers
run before the constructor body, so `detail::find_wildcard_masked` executes
*before* the `pattern.size() != mask.size()` check; only then does the body
throw `std::invalid_argument` on a length mismatch, and otherwise fill the
buffer via `masked_to_wildcard`. -/
def fromMasked (pattern mask : List Nat) (unk : Nat) : Except SigError memory_signature :=
  match find_wildcard_masked pattern mask unk with
  | none => .error .UnresolvableWildcard
  | some w =>
    if pattern.length ≠ mask.length then .error .LengthMismatch
    else .ok ⟨masked_to_wildcard pattern mask unk w, w⟩

/-- The string-mask constructor (lines 193-205): the mask is a `std::string`
whose characters are compared against `unknown_byte_identifier`. -/
def fromMaskedStr (pattern : List Nat) (mask : List Char) (unk : Nat) :
    Except SigError memory_signature :=
  fromMasked pattern (mask.map Char.toNat) unk

/-- The hybrid ("IDA style") constructor (lines 240-246): resolve the
wildcard over the raw characters of the input string, then parse the string
into the byte buffer. -/
def fromHybrid (cs : List Char) : Except SigError memory_signature :=
  match find_wildcard_hybrid cs with
  | none => .error .UnresolvableWildcard
  | some w => .ok ⟨hybrid_to_wildcard w cs, w⟩

/-- The inner comparison loop of `std::search` as invoked by
`memory_signature::find` (lines 259-262): the pattern matches at the front
of the range when every pattern byte `rhs` either equals the corresponding
range byte `lhs` or equals the wildcard
(`lhs == rhs || rhs == wildcard`). -/
def prefixMatch (w : Nat) : List Nat → List Nat → Bool
  | [], _ => true
  | _ :: _, [] => false
  | p :: ps, r :: rs => (r == p || p == w) && prefixMatch w ps rs

/-- The forward scan of `std::search`: the least offset at which the
pattern matches, or the length of the range when there is no match (for a
non-empty pattern the recursion bottoms out at the empty remainder, summing
to `range.length`). -/
def searchIdx (w : Nat) (pat : List Nat) : List Nat → Nat
  | [] => 0
  | r :: rs => if prefixMatch w pat (r :: rs) then 0 else searchIdx w pat rs + 1

/-- `memory_signature::find` (lines 253-263), with iterators rendered as
indices into the range: an empty signature immediately returns `last`
(modelled as `range.length`); otherwise `std::search` returns the start
index of the first match, or `range.length` when there is none. -/
def memory_signature.find (s : memory_signature) (range : List Nat) : Nat :=
  if s.pattern = [] then range.length
  else searchIdx s.wildcard s.pattern range

/-- The matching condition of the specification, spelled at position `p`:
the whole pattern fits inside `[first, last)` starting at `p`, and every
pattern byte either equals the range byte under it or equals the wildcard
(a wildcard-valued byte in the *range* gets no special treatment). -/
def sigMatchesAt (s : memory_signature) (range : List Nat) (p : Nat) : Prop :=
  p + s.pattern.length ≤ range.length ∧
  ∀ i < s.pattern.length,
    range.getD (p + i) 0 = s.pattern.getD i 0 ∨ s.pattern.getD i 0 = s.wildcard

instance (s : memory_signature) (range : List Nat) (p : Nat) :
    Decidable (sigMatchesAt s range p) := by
  unfold sigMatchesAt; infer_instance

/-! ## The wildcard resolver -/

/-- The mark that byte value `v` carries after the marking loop of
`find_wildcard`: the comparator result recorded at the *last* element whose
truncated value is `v`, or the initial mark `d` when no element touches `v`.
This captures that the loop assigns (rather than ORs) into the bitset. -/
def lastTouch : List (Nat × Bool) → Nat → Bool → Bool
  | [], _, d => d
  | pb :: rest, v, d => lastTouch rest v (if pb.1 % 256 = v then pb.2 else d)

theorem foldl_bitsAssign_getD (pairs : List (Nat × Bool)) :
    ∀ (bits : List Bool), bits.length = 256 → ∀ v < 256,
      (pairs.foldl bitsAssign bits).getD v false
        = lastTouch pairs v (bits.getD v false) := by
  induction pairs with
  | nil => intro bits _ v _; rfl
  | cons pb rest ih =>
    intro bits hlen v hv
    have hlen' : (bitsAssign bits pb).length = 256 := by
      simp [bitsAssign, hlen]
    have hone : (bitsAssign bits pb).getD v false
        = if pb.1 % 256 = v then pb.2 else bits.getD v false := by
      by_cases h : pb.1 % 256 = v
      · rw [if_pos h]
        simp only [bitsAssign, h, List.getD_eq_getElem?_getD]
        rw [List.getElem?_set_self (by omega)]
        rfl
      · rw [if_neg h]
        simp only [bitsAssign, List.getD_eq_getElem?_getD]
        rw [List.getElem?_set_ne h]
    simpa only [List.foldl_cons, lastTouch, hone] using ih (bitsAssign bits pb) hlen' v hv

theorem markBits_getD (pairs : List (Nat × Bool)) (v : Nat) (hv : v < 256) :
    (markBits pairs).getD v false = lastTouch pairs v false := by
  have h0 : initialBits.getD v false = false := by
    rw [initialBits, List.getD_eq_getElem?_getD, List.getElem?_replicate]
    split <;> rfl
  have := foldl_bitsAssign_getD pairs initialBits (by simp [initialBits]) v hv
  rwa [h0] at this

theorem lastTouch_false (pairs : List (Nat × Bool)) (v : Nat)
    (h : ∀ pb ∈ pairs, pb.1 % 256 = v → pb.2 = false) :
    lastTouch pairs v false = false := by
  induction pairs with
  | nil => rfl
  | cons pb rest ih =>
    simp only [lastTouch]
    by_cases hc : pb.1 % 256 = v
    · rw [if_pos hc, h pb (by simp) hc]
      exact ih fun q hq => h q (by simp [hq])
    · rw [if_neg hc]
      exact ih fun q hq => h q (by simp [hq])

theorem lastTouch_acc_true (pairs : List (Nat × Bool)) (v : Nat)
    (h : ∀ pb ∈ pairs, pb.2 = true) :
    lastTouch pairs v true = true := by
  induction pairs with
  | nil => rfl
  | cons pb rest ih =>
    simp only [lastTouch]
    by_cases hc : pb.1 % 256 = v
    · rw [if_pos hc, h pb (by simp)]
      exact ih fun q hq => h q (by simp [hq])
    · rw [if_neg hc]
      exact ih fun q hq => h q (by simp [hq])

theorem lastTouch_true (pairs : List (Nat × Bool)) (v : Nat)
    (hall : ∀ pb ∈ pairs, pb.2 = true)
    (htouch : ∃ pb ∈ pairs, pb.1 % 256 = v) :
    lastTouch pairs v false = true := by
  induction pairs with
  | nil => obtain ⟨pb, hpb, _⟩ := htouch; simp at hpb
  | cons pb rest ih =>
    simp only [lastTouch]
    by_cases hc : pb.1 % 256 = v
    · rw [if_pos hc, hall pb (by simp)]
      exact lastTouch_acc_true rest v fun q hq => hall q (by simp [hq])
    · rw [if_neg hc]
      refine ih (fun q hq => hall q (by simp [hq])) ?_
      obtain ⟨q, hq, hqv⟩ := htouch
      rcases List.mem_cons.mp hq with rfl | hq'
      · exact absurd hqv hc
      · exact ⟨q, hq', hqv⟩

/-- The hybrid resolver returns 0 on every input: its comparator marks a
byte value as used only when the character is a space or a `?`, and no
character with truncated byte value 0 is either of those. -/
theorem find_wildcard_hybrid_eq (cs : List Char) :
    find_wildcard_hybrid cs = some 0 := by
  unfold find_wildcard_hybrid find_wildcard
  have hzero : lastTouch (cs.map fun c => (c.toNat, !(c != ' ' && c != '?'))) 0 false
      = false := by
    apply lastTouch_false
    intro pb hpb hmod
    obtain ⟨c, _, rfl⟩ := List.mem_map.mp hpb
    simp only at hmod ⊢
    have hs : c ≠ ' ' := by rintro rfl; exact absurd hmod (by decide)
    have hq : c ≠ '?' := by rintro rfl; exact absurd hmod (by decide)
    simp [hs, hq]
  have hp : (!(markBits (cs.map fun c =>
      (c.toNat, !(c != ' ' && c != '?')))).getD 0 false) = true := by
    rw [markBits_getD _ 0 (by omega), hzero, Bool.not_false]
  rw [show (256 : Nat) = 255 + 1 from rfl, List.range_succ_eq_map,
    List.find?_cons]
  simp only [hp]

/-- If the comparator answered `true` on every element and every byte value
below 256 is the truncated value of some element, every bit ends up set and
`find_wildcard` throws (returns `none`). -/
theorem find_wildcard_eq_none (pairs : List (Nat × Bool))
    (hall : ∀ pb ∈ pairs, pb.2 = true)
    (hcover : ∀ v < 256, ∃ pb ∈ pairs, pb.1 % 256 = v) :
    find_wildcard pairs = none := by
  unfold find_wildcard
  rw [List.find?_eq_none]
  intro x hx
  have hx' := List.mem_range.mp hx
  rw [markBits_getD pairs x hx', lastTouch_true pairs x hall (hcover x hx')]
  simp

/-- With fewer than 256 elements the marking loop cannot set all 256 bits,
so `find_wildcard` succeeds. -/
theorem find_wildcard_isSome (pairs : List (Nat × Bool))
    (hsmall : pairs.length < 256) :
    ∃ w, find_wildcard pairs = some w := by
  have hsub : ¬ Finset.range 256 ⊆ (pairs.map fun pb => pb.1 % 256).toFinset := by
    intro hsub
    have h1 := Finset.card_le_card hsub
    have h2 := List.toFinset_card_le (pairs.map fun pb => pb.1 % 256)
    simp only [Finset.card_range, List.length_map] at h1 h2
    omega
  obtain ⟨v, hv, hvn⟩ := Finset.not_subset.mp hsub
  have hv' := Finset.mem_range.mp hv
  have huntouched : ∀ pb ∈ pairs, pb.1 % 256 ≠ v := by
    intro pb hpb hvv
    exact hvn (List.mem_toFinset.mpr (List.mem_map.mpr ⟨pb, hpb, hvv⟩))
  have hfree : lastTouch pairs v false = false :=
    lastTouch_false pairs v fun pb hpb ht => absurd ht (huntouched pb hpb)
  have : ∃ x, x ∈ List.range 256 ∧
      (fun i => !(markBits pairs).getD i false) x = true := by
    refine ⟨v, List.mem_range.mpr hv', ?_⟩
    simp only [markBits_getD pairs v hv', hfree, Bool.not_false]
  obtain ⟨w, hw⟩ := Option.isSome_iff_exists.mp
    (List.find?_isSome.mpr this)
  exact ⟨w, hw⟩

/-- C10: for every hybrid-notation input string, wildcard resolution never
fails (the `UnresolvableWildcard` branch is unreachable from the hybrid
constructor) and the resolved sentinel is always byte value 0, because the
hybrid comparator marks a value as used only at characters `' '` and `'?'`,
and byte value 0 is never one of those characters. -/
theorem hybrid_resolution_always_zero (cs : List Char) :
    find_wildcard_hybrid cs = some 0 ∧
    fromHybrid cs = .ok ⟨hybrid_to_wildcard 0 cs, 0⟩ := by
  have h := find_wildcard_hybrid_eq cs
  exact ⟨h, by simp [fromHybrid, h]⟩

/-- C7 counterexample: literal bytes covering all 256 values do *not*
suffice for construction to fail.  In the 257-byte pattern `0..255 ++ {0}`
with mask `1 × 256 ++ {0}` and unknown marker 0, the 256 literal positions
(`0..255`, each with mask entry 1 ≠ 0, as the first conjunct records) hold
every byte value, and position 256 is a wildcard holding pattern byte 0 —
yet construction *succeeds* with sentinel 0: the marking loop assigns
`bits[0] = false` at the final wildcard position, erasing the literal mark
that position 0 had left, so the ascending scan returns 0 instead of
throwing. -/
theorem all_literals_unresolvable_cex :
    ((List.range 256 ++ [0] : List Nat).take 256 = List.range 256 ∧
      (∀ i < 256, (List.replicate 256 1 ++ [0] : List Nat).getD i 0 ≠ 0) ∧
      (∀ v < 256, v ∈ (List.range 256 : List Nat))) ∧
    fromMasked (List.range 256 ++ [0]) (List.replicate 256 1 ++ [0]) 0
      = .ok ⟨List.range 256 ++ [0], 0⟩ := by decide

/-- C7 amended: when every byte value in 0..255 occurs in the pattern and
every mask entry marks its position as literal (no wildcard position at
all — which covers the claim's instance, a 256-byte literal-only pattern
using every byte value exactly once), every bit of the presence set ends up
set, resolution is impossible, and the masked construction fails with
`UnresolvableWildcard`.  The no-wildcard restriction is needed because the
marking loop assigns rather than ORs: a wildcard position whose pattern
byte repeats a literal's value erases that value's mark (see the
counterexample above). -/
theorem all_literals_unresolvable (pattern mask : List Nat) (unk : Nat)
    (hmask : ∀ m ∈ mask, m ≠ unk)
    (hlen : pattern.length ≤ mask.length)
    (hcover : ∀ v < 256, v ∈ pattern) :
    fromMasked pattern mask unk = .error .UnresolvableWildcard := by
  have hnone : find_wildcard_masked pattern mask unk = none := by
    unfold find_wildcard_masked
    apply find_wildcard_eq_none
    · intro pb hpb
      obtain ⟨i, hi, rfl⟩ := List.mem_map.mp hpb
      have hi' := List.mem_range.mp (by simpa [maskedResolverMaskReads] using hi)
      have hm : mask.getD i 0 = mask[i] := List.getD_eq_getElem mask 0 (by omega)
      simp only [hm]
      exact decide_eq_true (hmask _ (List.getElem_mem (by omega)))
    · intro v hv
      obtain ⟨i, hilt, hie⟩ := List.getElem_of_mem (hcover v hv)
      refine ⟨(pattern.getD i 0, decide (mask.getD i 0 ≠ unk)), ?_, ?_⟩
      · exact List.mem_map.mpr ⟨i, by simp [maskedResolverMaskReads, List.mem_range, hilt], rfl⟩
      · simp only [List.getD_eq_getElem pattern 0 hilt, hie]
        exact Nat.mod_eq_of_lt hv
  simp [fromMasked, hnone]

/-- Witness for C7: a 256-byte literal-only pattern using every byte value
exactly once, with an all-literal mask of the same length. -/
theorem all_literals_unresolvable_w :
    ((∀ m ∈ List.replicate 256 1, m ≠ 0) ∧
      (List.range 256).length ≤ (List.replicate 256 1).length ∧
      (∀ v < 256, v ∈ List.range 256)) ∧
    fromMasked (List.range 256) (List.replicate 256 1) 0
      = .error .UnresolvableWildcard :=
  ⟨⟨by decide, by decide, by decide⟩,
    all_literals_unresolvable (List.range 256) (List.replicate 256 1) 0
      (by decide) (by decide) (by decide)⟩

/-- C2 (code bug): the masked construction with pattern `{0, 0}`, mask
`{1, 0}`, unknown marker 0 *succeeds* and resolves the sentinel to 0, even
though position 0 is a literal position (its mask entry 1 differs from the
unknown marker) holding byte 0 — the stored pattern byte at a literal
position equals the sentinel, violating the claimed invariant.  The cause:
the marking loop assigns `bits[0] = true` at position 0 and then overwrites
it with `bits[0] = false` at the wildcard position 1. -/
theorem masked_sentinel_collision :
    fromMasked [0, 0] [1, 0] 0 = .ok ⟨[0, 0], 0⟩ ∧
    ([1, 0] : List Nat).getD 0 0 ≠ 0 ∧
    ([0, 0] : List Nat).getD 0 0 = 0 := by decide

/-- C4 (code bug): the hybrid resolver's comparator is
`!(b != ' ' && b != '?')`, so a string consisting of the single byte 0x00 —
a byte occurring outside the set `{space, '?'}` that the claim says must be
forbidden — leaves bit 0 unset and the resolver still returns 0 (the claim
would require the smallest non-forbidden value, 1). -/
theorem hybrid_resolver_ignores_nul :
    find_wildcard_hybrid [Char.ofNat 0] = some 0 ∧
    Char.toNat (Char.ofNat 0) = 0 := by decide

/-- C6 counterexample: constructing with pattern `{0, 1}` (length 2) and
mask `{1}` (length 1) does fail with `LengthMismatch`, but the resolver —
which C++ member initialization runs *before* the length check in the
constructor body — dereferences one mask element per pattern element, so
mask index 1, beyond the mask's own length, is accessed. -/
theorem masked_mask_oob_cex :
    fromMasked [0, 1] [1] 0 = .error .LengthMismatch ∧
    1 ∈ maskedResolverMaskReads [0, 1] ∧
    ¬ (1 < ([1] : List Nat).length) := by decide

/-- C6 amended: a masked construction with mismatched pattern/mask lengths
fails with `LengthMismatch` and no signature is created (for patterns
shorter than 256 bytes the resolver, which runs first, always succeeds), but
the resolver dereferences mask indices `0 .. pattern.length - 1`, so mask
elements beyond the mask's own length are accessed exactly when the pattern
is longer than the mask. -/
theorem masked_length_mismatch (pattern mask : List Nat) (unk : Nat)
    (hne : pattern.length ≠ mask.length) (hsmall : pattern.length < 256) :
    fromMasked pattern mask unk = .error .LengthMismatch ∧
    ((∀ i ∈ maskedResolverMaskReads pattern, i < mask.length)
        ↔ pattern.length ≤ mask.length) := by
  obtain ⟨w, hw⟩ := find_wildcard_isSome
    ((maskedResolverMaskReads pattern).map fun i =>
      (pattern.getD i 0, decide (mask.getD i 0 ≠ unk)))
    (by simpa [maskedResolverMaskReads] using hsmall)
  constructor
  · unfold fromMasked find_wildcard_masked
    rw [hw]
    simp [hne]
  · constructor
    · intro h
      rcases Nat.eq_zero_or_pos pattern.length with hz | hpos
      · omega
      · have := h (pattern.length - 1)
          (by simp [maskedResolverMaskReads, List.mem_range]; omega)
        omega
    · intro h i hi
      have := List.mem_range.mp (by simpa [maskedResolverMaskReads] using hi)
      omega

/-- Witness for C6 amended: pattern `{0, 1}` against mask `{1}`. -/
theorem masked_length_mismatch_w :
    (([0, 1] : List Nat).length ≠ ([1] : List Nat).length ∧
      ([0, 1] : List Nat).length < 256) ∧
    (fromMasked [0, 1] [1] 0 = .error .LengthMismatch ∧
      ((∀ i ∈ maskedResolverMaskReads [0, 1], i < ([1] : List Nat).length)
          ↔ ([0, 1] : List Nat).length ≤ ([1] : List Nat).length)) :=
  ⟨⟨by decide, by decide⟩, masked_length_mismatch [0, 1] [1] 0 (by decide) (by decide)⟩

/-! ## The hybrid parser, token by token -/

/-- A whitespace-delimited wildcard token: one or more `?` characters. -/
def wildTok (t : List Char) : Prop := t ≠ [] ∧ ∀ c ∈ t, c = '?'

/-- A whitespace-delimited hexadecimal byte token.  Tokens are limited to
two characters because the source accumulates token characters into the
two-byte buffer `char tokens[2]` (line 87); a longer token overflows it. -/
def hexTok (t : List Char) : Prop :=
  t ≠ [] ∧ t.length ≤ 2 ∧ ∀ c ∈ t, isHexDigitChar c = true

/-- Any short token free of spaces, `?`, control characters and sign
characters: on these `hexVal` agrees with `strtoul` even when the token is
not valid hexadecimal. -/
def rawTok (t : List Char) : Prop :=
  t ≠ [] ∧ t.length ≤ 2 ∧ ∀ c ∈ t, 32 < c.toNat ∧ c ≠ '?' ∧ c ≠ '+' ∧ c ≠ '-'

/-- Tokens the parser lemma below handles: non-empty and either a pure `?`
run or free of spaces and `?`. -/
def okTok (t : List Char) : Prop :=
  t ≠ [] ∧ ((∀ c ∈ t, c = '?') ∨ ∀ c ∈ t, c ≠ ' ' ∧ c ≠ '?')

instance (t : List Char) : Decidable (wildTok t) := by
  unfold wildTok; infer_instance

instance (t : List Char) : Decidable (hexTok t) := by
  unfold hexTok; infer_instance

instance (t : List Char) : Decidable (rawTok t) := by
  unfold rawTok; infer_instance

/-- The single output byte produced by one whitespace-delimited token: a
`?` run yields the wildcard, anything else goes through the hex
conversion. -/
def tokenByte (w : Nat) (t : List Char) : Nat :=
  if t.all (fun c => c == '?') then w else hexVal t % 256

/-- Space-join of a token list; no trailing space, so the final token is
consumed by the end-of-string flush. -/
def joinToks : List (List Char) → List Char
  | [] => []
  | [t] => t
  | t :: ts => t ++ ' ' :: joinToks ts

theorem joinToks_cons_cons (t t₂ : List Char) (ts : List (List Char)) :
    joinToks (t :: t₂ :: ts) = t ++ ' ' :: joinToks (t₂ :: ts) := rfl

theorem foldl_hstep_other (w : Nat) :
    ∀ (t : List Char), (∀ c ∈ t, c ≠ ' ' ∧ c ≠ '?') → ∀ s : HState,
      List.foldl (hstep w) s t = { s with tokens := s.tokens ++ t } := by
  intro t
  induction t with
  | nil => intro _ s; simp
  | cons c rest ih =>
    intro h s
    have hc := h c (by simp)
    rw [List.foldl_cons, show hstep w s c = { s with tokens := s.tokens ++ [c] } by
        simp [hstep, hc.1, hc.2],
      ih (fun d hd => h d (by simp [hd])) _]
    simp

theorem foldl_hstep_wild_true (w : Nat) :
    ∀ (t : List Char), (∀ c ∈ t, c = '?') → ∀ s : HState, s.prev = true →
      List.foldl (hstep w) s t = s := by
  intro t
  induction t with
  | nil => intro _ s _; rfl
  | cons c rest ih =>
    intro h s hs
    have hc := h c (by simp)
    subst hc
    rw [List.foldl_cons, show hstep w s '?' = s by simp [hstep, hs]]
    exact ih (fun d hd => h d (by simp [hd])) s hs

theorem foldl_hstep_wild (w : Nat) (t : List Char)
    (ht : ∀ c ∈ t, c = '?') (hne : t ≠ []) (s : HState) (hprev : s.prev = false) :
    List.foldl (hstep w) s t = { s with prev := true, out := s.out ++ [w] } := by
  cases t with
  | nil => exact absurd rfl hne
  | cons c rest =>
    have hc := ht c (by simp)
    subst hc
    rw [List.foldl_cons,
      show hstep w s '?' = { s with prev := true, out := s.out ++ [w] } by
        simp [hstep, hprev]]
    exact foldl_hstep_wild_true w rest (fun d hd => ht d (by simp [hd])) _ rfl

theorem tokenByte_wild (w : Nat) (t : List Char) (ht : ∀ c ∈ t, c = '?') :
    tokenByte w t = w := by
  unfold tokenByte
  rw [if_pos]
  rw [List.all_eq_true]
  intro c hc
  exact beq_iff_eq.mpr (ht c hc)

theorem tokenByte_other (w : Nat) (t : List Char) (hne : t ≠ [])
    (ht : ∀ c ∈ t, c ≠ '?') : tokenByte w t = hexVal t % 256 := by
  unfold tokenByte
  rw [if_neg]
  cases t with
  | nil => exact absurd rfl hne
  | cons c rest =>
    simp only [List.all_cons, Bool.and_eq_true, beq_iff_eq]
    rintro ⟨h1, -⟩
    exact ht c (by simp) h1

/-- Running the character loop over a space-joined token list from a clean
state and flushing: each token contributes exactly one output byte. -/
theorem hybrid_run (w : Nat) :
    ∀ (ts : List (List Char)), (∀ t ∈ ts, okTok t) → ∀ out : List Nat,
      hybridFlush (List.foldl (hstep w) ⟨[], false, out⟩ (joinToks ts))
        = out ++ ts.map (tokenByte w) := by
  intro ts
  induction ts with
  | nil => intro _ out; simp [joinToks, hybridFlush]
  | cons t rest ih =>
    intro h out
    obtain ⟨hne, hkind⟩ := h t (by simp)
    cases rest with
    | nil =>
      show hybridFlush (List.foldl (hstep w) ⟨[], false, out⟩ (joinToks [t])) = _
      rcases hkind with hw | ho
      · rw [show joinToks [t] = t from rfl, foldl_hstep_wild w t hw hne _ rfl]
        simp [hybridFlush, tokenByte_wild w t hw]
      · rw [show joinToks [t] = t from rfl, foldl_hstep_other w t ho _]
        have : (t.isEmpty) = false := by
          cases t with
          | nil => exact absurd rfl hne
          | cons a l => rfl
        simp [hybridFlush, this, tokenByte_other w t hne fun c hc => (ho c hc).2]
    | cons t₂ rest₂ =>
      rw [joinToks_cons_cons, List.foldl_append]
      rcases hkind with hw | ho
      · rw [foldl_hstep_wild w t hw hne _ rfl]
        rw [List.foldl_cons, show hstep w ⟨[], true, out ++ [w]⟩ ' '
            = ⟨[], false, out ++ [w]⟩ by simp [hstep]]
        rw [ih (fun u hu => h u (by simp [hu])) (out ++ [w])]
        simp [tokenByte_wild w t hw]
      · rw [foldl_hstep_other w t ho _]
        have hemp : (t.isEmpty) = false := by
          cases t with
          | nil => exact absurd rfl hne
          | cons a l => rfl
        rw [List.foldl_cons, show hstep w ⟨[] ++ t, false, out⟩ ' '
            = ⟨[], false, out ++ [hexVal t % 256]⟩ by simp [hstep, hemp]]
        rw [ih (fun u hu => h u (by simp [hu])) _]
        simp [tokenByte_other w t hne fun c hc => (ho c hc).2]

/-- C5: for a hybrid-notation input made of whitespace-delimited tokens —
each a `?` run of any length or a hexadecimal byte literal — the parsed
pattern has exactly one byte per token: each `?` run collapses to a single
wildcard byte, each hex token becomes the single byte `hexVal t % 256`, and
the trailing token (no trailing whitespace) is consumed by the
end-of-string flush. -/
theorem hybrid_token_parse (ts : List (List Char))
    (h : ∀ t ∈ ts, wildTok t ∨ hexTok t) :
    fromHybrid (joinToks ts) = .ok ⟨ts.map (tokenByte 0), 0⟩ ∧
    (ts.map (tokenByte 0)).length = ts.length := by
  have hok : ∀ t ∈ ts, okTok t := by
    intro t ht
    rcases h t ht with ⟨hne, hw⟩ | ⟨hne, _, hhex⟩
    · exact ⟨hne, Or.inl hw⟩
    · refine ⟨hne, Or.inr ?_⟩
      intro c hc
      have hd := hhex c hc
      constructor
      · rintro rfl; revert hd; decide
      · rintro rfl; revert hd; decide
  have hres := find_wildcard_hybrid_eq (joinToks ts)
  have hrun := hybrid_run 0 ts hok []
  constructor
  · simp only [fromHybrid, hres, hybrid_to_wildcard]
    rw [hrun]
    simp
  · simp

/-- Witness for C5: the hybrid text `"? ?? ???"` parses to exactly three
wildcard bytes, one per token, not six. -/
theorem hybrid_token_parse_w :
    (∀ t ∈ [['?'], ['?', '?'], ['?', '?', '?']], wildTok t ∨ hexTok t) ∧
    joinToks [['?'], ['?', '?'], ['?', '?', '?']] = ("? ?? ???").data ∧
    (fromHybrid (joinToks [['?'], ['?', '?'], ['?', '?', '?']])
        = .ok ⟨[['?'], ['?', '?'], ['?', '?', '?']].map (tokenByte 0), 0⟩ ∧
      ([['?'], ['?', '?'], ['?', '?', '?']].map (tokenByte 0)).length
        = ([['?'], ['?', '?'], ['?', '?', '?']] : List (List Char)).length) :=
  ⟨by decide, by decide,
    hybrid_token_parse [['?'], ['?', '?'], ['?', '?', '?']] (by decide)⟩

/-- C3 counterexample: the hybrid input `"zz"` contains a token that is
neither valid hexadecimal nor a wildcard marker, yet construction does
*not* fail — the header performs no token validation and has no
"malformed token" error path at all (its only exceptions are the length
mismatch and the unresolvable wildcard); `strtoul` converts no character of
`"zz"` and yields 0, so a signature with pattern `{0x00}` is created. -/
theorem hybrid_malformed_ok :
    fromHybrid (("zz").data) = .ok ⟨[0], 0⟩ := by decide

/-- C3 amended: hybrid construction never rejects a malformed token; a
token containing characters that are not hexadecimal digits (and not `?`
or space) is silently converted by `strtoul`, i.e. by the hex value of its
longest leading hex-digit run (0 when there is none), and construction
succeeds. -/
theorem hybrid_no_validation (ts : List (List Char))
    (h : ∀ t ∈ ts, rawTok t) :
    fromHybrid (joinToks ts) = .ok ⟨ts.map (fun t => hexVal t % 256), 0⟩ := by
  have hok : ∀ t ∈ ts, okTok t := by
    intro t ht
    obtain ⟨hne, _, hc⟩ := h t ht
    refine ⟨hne, Or.inr ?_⟩
    intro c hcc
    obtain ⟨hgt, hq, -, -⟩ := hc c hcc
    refine ⟨?_, hq⟩
    rintro rfl
    exact absurd hgt (by decide)
  have hres := find_wildcard_hybrid_eq (joinToks ts)
  have hrun := hybrid_run 0 ts hok []
  have hmap : ts.map (tokenByte 0) = ts.map fun t => hexVal t % 256 := by
    apply List.map_congr_left
    intro t ht
    obtain ⟨hne, _, hc⟩ := h t ht
    exact tokenByte_other 0 t hne fun c hcc => (hc c hcc).2.1
  simp only [fromHybrid, hres, hybrid_to_wildcard]
  rw [hrun, hmap]
  simp

/-- Witness for C3 amended: the malformed token `"zz"`. -/
theorem hybrid_no_validation_w :
    (∀ t ∈ [['z', 'z']], rawTok t) ∧
    fromHybrid (joinToks [['z', 'z']])
      = .ok ⟨([['z', 'z']] : List (List Char)).map (fun t => hexVal t % 256), 0⟩ :=
  ⟨by decide, hybrid_no_validation [['z', 'z']] (by decide)⟩

/-- C9: the hybrid text `"01 ?? 13 14"` and the masked notation with bytes
`{0x01, 0x00, 0x13, 0x14}`, mask `{1, 0, 1, 1}`, unknown marker 0 construct
signatures whose `find` agrees on every byte range (both yield pattern
`{0x01, 0x00, 0x13, 0x14}` with sentinel 0). -/
theorem hybrid_masked_roundtrip :
    ∃ s₁ s₂ : memory_signature,
      fromHybrid (("01 ?? 13 14").data) = .ok s₁ ∧
      fromMasked [0x01, 0x00, 0x13, 0x14] [1, 0, 1, 1] 0 = .ok s₂ ∧
      ∀ range : List Nat, s₁.find range = s₂.find range :=
  ⟨⟨[0x01, 0x00, 0x13, 0x14], 0⟩, ⟨[0x01, 0x00, 0x13, 0x14], 0⟩,
    by decide, by decide, fun _ => rfl⟩

/-! ## The matcher -/

theorem prefixMatch_iff (w : Nat) :
    ∀ (pat range : List Nat),
      prefixMatch w pat range = true ↔
        (pat.length ≤ range.length ∧
          ∀ i < pat.length, range.getD i 0 = pat.getD i 0 ∨ pat.getD i 0 = w) := by
  intro pat
  induction pat with
  | nil => intro range; simp [prefixMatch]
  | cons p ps ih =>
    intro range
    cases range with
    | nil => simp [prefixMatch]
    | cons r rs =>
      rw [show prefixMatch w (p :: ps) (r :: rs)
          = ((r == p || p == w) && prefixMatch w ps rs) from rfl,
        Bool.and_eq_true, ih rs]
      simp only [Bool.or_eq_true, beq_iff_eq, List.length_cons]
      constructor
      · rintro ⟨hhead, hlen, htail⟩
        refine ⟨by omega, ?_⟩
        intro i hi
        cases i with
        | zero => simpa using hhead
        | succ j => simpa using htail j (by omega)
      · rintro ⟨hlen, hall⟩
        refine ⟨by simpa using hall 0 (by omega), by omega, ?_⟩
        intro j hj
        simpa using hall (j + 1) (by omega)

theorem prefixMatch_nil_false (w : Nat) (pat : List Nat) (h : pat ≠ []) :
    prefixMatch w pat [] = false := by
  cases pat with
  | nil => exact absurd rfl h
  | cons p ps => rfl

theorem getD_drop_zero (l : List Nat) :
    ∀ (p i : Nat), (l.drop p).getD i 0 = l.getD (p + i) 0 := by
  induction l with
  | nil => intro p i; simp
  | cons x xs ih =>
    intro p i
    cases p with
    | zero => simp
    | succ q =>
      rw [List.drop_succ_cons, ih q i, Nat.succ_add, List.getD_cons_succ]

theorem searchIdx_correct (w : Nat) (pat : List Nat) :
    ∀ range : List Nat,
      (∀ q < searchIdx w pat range, prefixMatch w pat (range.drop q) = false) ∧
      (searchIdx w pat range = range.length ∨
        prefixMatch w pat (range.drop (searchIdx w pat range)) = true) := by
  intro range
  induction range with
  | nil => exact ⟨fun q hq => absurd hq (by simp [searchIdx]), Or.inl rfl⟩
  | cons r rs ih =>
    by_cases hm : prefixMatch w pat (r :: rs) = true
    · rw [show searchIdx w pat (r :: rs)
          = if prefixMatch w pat (r :: rs) then 0 else searchIdx w pat rs + 1 from rfl,
        if_pos hm]
      exact ⟨fun q hq => absurd hq (by omega), Or.inr (by simpa using hm)⟩
    · have hm' : prefixMatch w pat (r :: rs) = false := by
        simpa using hm
      rw [show searchIdx w pat (r :: rs)
          = if prefixMatch w pat (r :: rs) then 0 else searchIdx w pat rs + 1 from rfl,
        if_neg (by simp [hm'])]
      refine ⟨?_, ?_⟩
      · intro q hq
        cases q with
        | zero => simpa using hm'
        | succ j =>
          rw [List.drop_succ_cons]
          exact ih.1 j (by omega)
      · rcases ih.2 with h | h
        · left; simp [h]
        · right; rwa [List.drop_succ_cons]

theorem sigMatchesAt_iff (s : memory_signature) (range : List Nat) (p : Nat)
    (h : s.pattern ≠ []) :
    sigMatchesAt s range p ↔
      prefixMatch s.wildcard s.pattern (range.drop p) = true := by
  rw [prefixMatch_iff]
  unfold sigMatchesAt
  have hpos : 0 < s.pattern.length := List.length_pos.mpr h
  constructor
  · rintro ⟨hlen, hall⟩
    refine ⟨by simp [List.length_drop]; omega, ?_⟩
    intro i hi
    rw [getD_drop_zero]
    exact hall i hi
  · rintro ⟨hlen, hall⟩
    rw [List.length_drop] at hlen
    refine ⟨by omega, ?_⟩
    intro i hi
    rw [← getD_drop_zero]
    exact hall i hi

/-- C1: for a non-empty pattern, `find` returns the least position `p` at
which every pattern byte matches the range byte under it or equals the
wildcard (only a wildcard in the *pattern* matches anything — the
equivalence predicate `lhs == rhs || rhs == wildcard` gives the range byte
`lhs` no such power), and returns `range.length` (the model of `last`) when
no such position exists — in particular whenever the range is shorter than
the pattern, since a match requires `p + pattern.length ≤ range.length`; the
model never consults a byte at or beyond `last`. -/
theorem find_first_match (s : memory_signature) (range : List Nat)
    (h : s.pattern ≠ []) :
    (sigMatchesAt s range (s.find range) ∧
      ∀ q < s.find range, ¬ sigMatchesAt s range q) ∨
    (s.find range = range.length ∧ ∀ p, ¬ sigMatchesAt s range p) := by
  have hfind : s.find range = searchIdx s.wildcard s.pattern range := by
    simp [memory_signature.find, h]
  obtain ⟨hmin, hend⟩ := searchIdx_correct s.wildcard s.pattern range
  rcases hend with he | hm
  · right
    refine ⟨by rw [hfind, he], ?_⟩
    intro p
    rw [sigMatchesAt_iff s range p h]
    by_cases hlt : p < range.length
    · rw [hmin p (by rw [he]; exact hlt)]
      · simp
    · rw [List.drop_eq_nil_of_le (by omega),
        prefixMatch_nil_false s.wildcard s.pattern h]
      simp
  · left
    refine ⟨?_, ?_⟩
    · rw [sigMatchesAt_iff s range _ h, hfind]
      exact hm
    · intro q hq
      rw [sigMatchesAt_iff s range q h]
      rw [hmin q (by rw [← hfind]; exact hq)]
      simp

/-- Witness for C1: the signature `{0x13}` with wildcard `0x12` finds its
first (and only) match at position 1 of the range `{0x11, 0x13}`. -/
theorem find_first_match_w :
    ((⟨[19], 18⟩ : memory_signature).pattern ≠ []) ∧
    ((sigMatchesAt ⟨[19], 18⟩ [17, 19]
          ((⟨[19], 18⟩ : memory_signature).find [17, 19]) ∧
        ∀ q < (⟨[19], 18⟩ : memory_signature).find [17, 19],
          ¬ sigMatchesAt ⟨[19], 18⟩ [17, 19] q) ∨
      ((⟨[19], 18⟩ : memory_signature).find [17, 19]
            = ([17, 19] : List Nat).length ∧
        ∀ p, ¬ sigMatchesAt ⟨[19], 18⟩ [17, 19] p)) :=
  ⟨by decide, find_first_match ⟨[19], 18⟩ [17, 19] (by decide)⟩

/-- C8: a signature whose pattern is empty returns `last` (`range.length`)
on every range, including the empty one — the guard at line 256 returns
before `std::search` could report a vacuous zero-length match at `first`. -/
theorem find_empty_pattern (w : Nat) (range : List Nat) :
    (memory_signature.mk [] w).find range = range.length := rfl

end MemorySignature
